import Mathlib

/-!
# Verification of the EduTranslator record store and assignment workflow

A shallow embedding of the persistence and workflow logic of `app.py`
(EduTranslator Plus): the CSV-backed record store (`append_log` /
`save_row` / the read paths), the group-filtered assignment directory,
the timestamp sort and default selection, the memoised `now_str`
timestamp, the guarded `llm` call, and the submit handler.

Modelling conventions:
* Files are `Option String` (`none` = the file does not exist, matching
  the `os.path.exists` guards); file contents are the literal character
  stream written by `DataFrame.to_csv` and read by `pd.read_csv`.
* CSV serialisation follows the minimal-quoting csv writer used by
  pandas: a field containing the delimiter, the quote character or a
  line break is wrapped in quotes with inner quotes doubled.  The
  trailing newline pandas emits after the last record is ignored by the
  reader and is not modelled.  Fields are kept as strings: pandas'
  numeric/NaN type inference on read-back is not modelled, except that
  the `fillna("")` applied by every consumer is folded into reading an
  empty field back as the empty string.
* `pd.concat(..., ignore_index=True)` on frames with differing columns
  takes the union of the columns (first frame's columns first) and fills
  missing cells; the filled cells are modelled as `""`, the value every
  consumer sees after `fillna("")`.
-/

set_option maxHeartbeats 1000000

namespace EduTranslator

/-- Does a CSV field need quoting?  True when it contains the field
delimiter, the quote character, or a line-break character — the
minimal-quoting rule of the csv writer behind `DataFrame.to_csv`. -/
def needsQuote (f : List Char) : Bool :=
  f.any fun c => c == ',' || c == '"' || c == '\n' || c == '\r'

/-- Double every quote character, as the csv writer does inside a quoted
field. -/
def escQuote : List Char → List Char
  | [] => []
  | c :: cs => if c = '"' then '"' :: '"' :: escQuote cs else c :: escQuote cs

/-- Serialise one field, quoting it exactly when needed. -/
def encodeField (f : List Char) : List Char :=
  if needsQuote f then '"' :: (escQuote f ++ ['"']) else f

/-- Join chunks with a separator. -/
def joinSep (sep : List Char) : List (List Char) → List Char
  | [] => []
  | [x] => x
  | x :: y :: xs => x ++ sep ++ joinSep sep (y :: xs)

/-- Serialise one record (one CSV line): fields joined by commas. -/
def encodeRecord (r : List (List Char)) : List Char :=
  joinSep [','] (r.map encodeField)

/-- Serialise a whole CSV document: records joined by newlines. -/
def encodeCsv (rs : List (List (List Char))) : List Char :=
  joinSep ['\n'] (rs.map encodeRecord)

/-- Prepend a character to the first field of the first record of a
partially parsed document. -/
def consField (c : Char) : List (List (List Char)) → List (List (List Char))
  | [] => [[[c]]]
  | [] :: recs => [[c]] :: recs
  | (fld :: rec) :: recs => ((c :: fld) :: rec) :: recs

/-- The csv reader, as a two-mode scanner over the character stream.
In mode `false` (outside quotes) a comma ends the current field, a
newline ends the current record and a quote enters quoted mode; in mode
`true` (inside quotes) a doubled quote stands for a literal quote and a
single quote returns to unquoted mode.  This is the record/field
structure `pd.read_csv` recovers from a file written by `to_csv`. -/
def parseCsvAux : Bool → List Char → List (List (List Char))
  | false, [] => [[[]]]
  | false, c :: rest =>
    if c = '"' then parseCsvAux true rest
    else if c = ',' then
      match parseCsvAux false rest with
      | [] => [[[]]]
      | rec :: recs => ([] :: rec) :: recs
    else if c = '\n' then
      [[]] :: parseCsvAux false rest
    else consField c (parseCsvAux false rest)
  | true, [] => [[[]]]
  | true, c :: rest =>
    if c = '"' then
      match rest with
      | [] => [[[]]]
      | c2 :: rest2 =>
        if c2 = '"' then consField '"' (parseCsvAux true rest2)
        else parseCsvAux false (c2 :: rest2)
    else consField c (parseCsvAux true rest)

/-- Parse a CSV document into its records of fields. -/
def parseCsv (cs : List Char) : List (List (List Char)) :=
  parseCsvAux false cs

/-- Prepend a whole field to the first record of a parsed document. -/
def prependF (f : List Char) : List (List (List Char)) → List (List (List Char))
  | [] => [[f]]
  | rec :: recs => (f :: rec) :: recs

/-- A pandas DataFrame as the record store sees it: a header naming the
columns and the data rows (each row positional, matching the header). -/
structure DataFrame where
  cols : List String
  rows : List (List String)
deriving DecidableEq, Repr

/-- `DataFrame.to_csv(path, index=False)`: header line then data lines. -/
def to_csv (df : DataFrame) : String :=
  String.mk (encodeCsv (df.cols.map String.data ::
    df.rows.map fun r => r.map String.data))

/-- `pd.read_csv(path)`: first record is the header, the rest are rows. -/
def read_csv (s : String) : DataFrame :=
  match (parseCsv s.data).map (fun rec => rec.map fun f => String.mk f) with
  | [] => DataFrame.mk [] []
  | header :: rows => DataFrame.mk header rows

/-- Re-index one positional row from its source columns to a target
column list, filling columns the row does not have with `""` (the value
every consumer sees after `fillna("")`). -/
def reindex (cols srcCols : List String) (row : List String) : List String :=
  cols.map fun c => (List.lookup c (srcCols.zip row)).getD ""

/-- The column union produced by `pd.concat(..., ignore_index=True)`:
the first frame's columns, then the second frame's new columns. -/
def concatCols (a b : DataFrame) : List String :=
  a.cols ++ b.cols.filter fun c => !(a.cols.contains c)

/-- `pd.concat([a, b], ignore_index=True)`: rows of `a` then rows of
`b`, each re-indexed to the union of the columns. -/
def concatDF (a b : DataFrame) : DataFrame :=
  DataFrame.mk (concatCols a b)
    (a.rows.map (reindex (concatCols a b) a.cols) ++
     b.rows.map (reindex (concatCols a b) b.cols))

/-- `pd.DataFrame([row])` for a single dict row: the header is the dict's
keys in order, the single data row its values. -/
def rowDF (row : List (String × String)) : DataFrame :=
  DataFrame.mk (row.map Prod.fst) [row.map Prod.snd]

/-- `append_log(csv_path, row)` from `app.py`: build a one-row frame; if
the file exists, read it all back and concatenate; rewrite the whole
file.  The result is the new file contents. -/
def append_log (file : Option String) (row : List (String × String)) : String :=
  match file with
  | none => to_csv (rowDF row)
  | some contents => to_csv (concatDF (read_csv contents) (rowDF row))

/-- `save_row(path, row)` from the Assignments tab — textually the same
read-all/concat/rewrite procedure as `append_log`. -/
def save_row (file : Option String) (row : List (String × String)) : String :=
  match file with
  | none => to_csv (rowDF row)
  | some contents => to_csv (concatDF (read_csv contents) (rowDF row))

/-- The common read pattern (the spec's `readAll`): a missing file is
"no data yet", otherwise the parsed data rows. -/
def readAll (file : Option String) : List (List String) :=
  match file with
  | none => []
  | some contents => (read_csv contents).rows

/-- The DataFrame an append produces (what `append_log` serialises). -/
def appendDF (file : Option String) (row : List (String × String)) : DataFrame :=
  match file with
  | none => rowDF row
  | some contents => concatDF (read_csv contents) (rowDF row)

/-- A well-formed store frame: a non-empty, duplicate-free header and
rows matching the header positionally — the shape every frame written by
the app has. -/
def WFdf (df : DataFrame) : Prop :=
  df.cols ≠ [] ∧ df.cols.Nodup ∧ ∀ r ∈ df.rows, r.length = df.cols.length

instance (df : DataFrame) : Decidable (WFdf df) := by
  unfold WFdf; infer_instance

/-- One assignment row as created by the instructor's "Create assignment"
handler: the fields of the dict passed to `save_row(ASSIGN_CSV, ...)`,
in order. -/
structure Assignment where
  timestamp : String
  code : String
  title : String
  mode : String
  source_lang : String
  target_lang : String
  domain : String
  tone : String
  deadline : String
  text : String
  mt_draft : String
  instructor : String
  group : String
deriving DecidableEq, Repr

/-- Python's default `str.strip()` whitespace set. -/
def isPySpace (c : Char) : Bool :=
  c == ' ' || c == '\t' || c == '\n' || c == '\r' || c == '\x0b' || c == '\x0c'

/-- `(group_code or "").strip()`. -/
def pyStrip (s : String) : String :=
  String.mk (((s.data.dropWhile isPySpace).reverse.dropWhile isPySpace).reverse)

/-- The student view's `assignments_for_group`: starts empty; when the
assignments file exists, read all rows; only when the stripped entered
group code is non-empty, keep the rows whose (NaN-filled) `group` column
equals it exactly. -/
def assignments_for_group (store : Option (List Assignment))
    (group_code : String) : List Assignment :=
  match store with
  | none => []
  | some df_all =>
    if pyStrip group_code = "" then []
    else df_all.filter fun a => a.group == pyStrip group_code

/-- Lexicographic order on character sequences, comparing code points.
Timestamps are written with the fixed-width format
`%Y-%m-%d %H:%M:%S`, on which this coincides with the chronological
order `pd.to_datetime` + `sort_values` uses. -/
def lexLe : List Char → List Char → Bool
  | [], _ => true
  | _ :: _, [] => false
  | a :: as, b :: bs =>
    if a.toNat < b.toNat then true
    else if b.toNat < a.toNat then false
    else lexLe as bs

/-- The sort key of `assignments_for_group.sort_values('timestamp')`. -/
def tsLeP (a b : Assignment) : Prop :=
  lexLe a.timestamp.data b.timestamp.data = true

instance : DecidableRel tsLeP := fun a b =>
  inferInstanceAs (Decidable (lexLe a.timestamp.data b.timestamp.data = true))

/-- The ordered directory listing the student sees: the group's rows
sorted by timestamp ascending (`sort_values('timestamp')`, a stable sort
modelling pandas' behaviour on the already insertion-ordered rows). -/
def listFor (store : Option (List Assignment)) (group_code : String) :
    List Assignment :=
  List.insertionSort tsLeP (assignments_for_group store group_code)

/-- The default selection: `idx_default = len(options) - 1` picks the
last element of the sorted listing; an empty listing selects nothing
(the code shows a warning instead of the selectbox). -/
def default_assignment (store : Option (List Assignment))
    (group_code : String) : Option Assignment :=
  (listFor store group_code).getLast?

/-- First-occurrence deduplication (the distinct values of a column, in
order of first appearance). -/
def firstDedup (vs : List String) : List String :=
  vs.foldl (fun acc v => if acc.contains v then acc else acc ++ [v]) []

/-- `value_counts()` over a column: each distinct value with its count. -/
def valueCounts (vs : List String) : List (String × Nat) :=
  (firstDedup vs).map fun v => (v, vs.count v)

/-- Sort value counts descending by count. -/
def sortByCountDesc (ps : List (String × Nat)) : List (String × Nat) :=
  @List.insertionSort _ (fun p q => q.2 ≤ p.2) (fun p q => Nat.decLe q.2 p.2) ps

/-- `top_counts(csv_name, column, n)` from the Teacher Dashboard: an
empty table when the file does not exist or lacks the column; otherwise
the `n` most frequent (NaN-filled) values of the column. -/
def top_counts (file : Option String) (column : String) (n : Nat) :
    List (String × Nat) :=
  match file with
  | none => []
  | some contents =>
    if (read_csv contents).cols.contains column then
      (sortByCountDesc (valueCounts ((read_csv contents).rows.map fun r =>
        (List.lookup column ((read_csv contents).cols.zip r)).getD ""))).take n
    else []

/-- `llm(messages, temperature)`: the external chat-completion call is
modelled by its outcome — `Except.error e` when the API call raises an
exception whose string form is `e`, `Except.ok content` when it returns
`content`.  The function strips a successful response and converts any
exception into the inline warning string; it never re-raises. -/
def llm (serviceResult : Except String String) : String :=
  match serviceResult with
  | Except.ok content => content.trim
  | Except.error e => "⚠️ LLM call failed: " ++ e

/-- `now_str()` under the `@st.cache_data` decorator: the cache (one
optional stored string, since the function takes no arguments) is
consulted first; only on a miss is the current wall-clock string
`current` computed and stored.  Returns the value and the new cache. -/
def now_str (cache : Option String) (current : String) :
    String × Option String :=
  match cache with
  | some s => (s, some s)
  | none => (current, some current)

/-- A sequence of `now_str()` calls in one process run: thread the cache
through the successive wall-clock readings and collect the returned
timestamp strings. -/
def nowStrRun : Option String → List String → List String
  | _, [] => []
  | cache, t :: ts =>
    (now_str cache t).1 :: nowStrRun (now_str cache t).2 ts

/-- The dict written by the "Submit assignment" handler, key for key. -/
def submit_row (now code student group session_id first_draft final
    reflection : String) : List (String × String) :=
  [("timestamp", now), ("code", code), ("student", student),
   ("group", group), ("session", session_id), ("first_draft", first_draft),
   ("final", final), ("reflection", reflection)]

/-- The "Submit assignment" handler: one `save_row` into the submissions
file; nothing else is computed or written. -/
def submit_assignment (file : Option String) (now code student group
    session_id first_draft final reflection : String) : String :=
  save_row file
    (submit_row now code student group session_id first_draft final reflection)

/-- A concrete assignment used by witnesses and counterexamples. -/
def sampleA : Assignment :=
  Assignment.mk "2025-01-01 09:00:00" "ENG201-AB12" "Intro Letter"
    "Translate first (student writes their draft)" "Arabic" "English"
    "General" "Neutral" "" "Hello" "" "Dr. N" "ENG201-1"

/-- A second concrete assignment for the same group, created later. -/
def sampleB : Assignment :=
  Assignment.mk "2025-01-02 09:00:00" "ENG201-CD34" "Second Letter"
    "Translate first (student writes their draft)" "Arabic" "English"
    "General" "Neutral" "" "Goodbye" "" "Dr. N" "ENG201-1"

/-! ## The CSV layer round-trips

The reader recovers exactly the records the writer serialised: quoting
inverts `escQuote`, commas delimit encoded fields, newlines delimit
encoded records.  Assembled bottom-up, one lemma per scanner
transition, then one per separator. -/

/-- `String.mk` and `String.data` are mutually inverse. -/
theorem string_mk_data (s : String) : String.mk s.data = s := rfl

/-- Scanner step: an unquoted quote enters quoted mode. -/
theorem step_false_quote (rest : List Char) :
    parseCsvAux false ('"' :: rest) = parseCsvAux true rest := by
  conv_lhs => rw [parseCsvAux.eq_def]
  simp

/-- Scanner step: an ordinary unquoted character joins the open field. -/
theorem step_false_char (c : Char) (rest : List Char) (h1 : ¬c = '"')
    (h2 : ¬c = ',') (h3 : ¬c = '\n') :
    parseCsvAux false (c :: rest) = consField c (parseCsvAux false rest) := by
  conv_lhs => rw [parseCsvAux.eq_def]
  simp [h1, h2, h3]

/-- Scanner step: an unquoted comma opens a fresh empty field. -/
theorem step_false_comma (rest : List Char) :
    parseCsvAux false (',' :: rest) = prependF [] (parseCsvAux false rest) := by
  conv_lhs => rw [parseCsvAux.eq_def]
  cases hp : parseCsvAux false rest with
  | nil => simp [hp, prependF]
  | cons rec recs => simp [hp, prependF]

/-- Scanner step: an unquoted newline closes the current record. -/
theorem step_false_newline (rest : List Char) :
    parseCsvAux false ('\n' :: rest) = [[]] :: parseCsvAux false rest := by
  conv_lhs => rw [parseCsvAux.eq_def]
  simp

/-- Scanner step: a doubled quote inside quotes is a literal quote. -/
theorem step_true_esc (cs : List Char) :
    parseCsvAux true ('"' :: '"' :: cs) =
      consField '"' (parseCsvAux true cs) := by
  conv_lhs => rw [parseCsvAux.eq_def]
  simp

/-- Scanner step: a closing quote returns to unquoted mode. -/
theorem step_true_close (c : Char) (cs : List Char) (hc : ¬c = '"') :
    parseCsvAux true ('"' :: c :: cs) = parseCsvAux false (c :: cs) := by
  conv_lhs => rw [parseCsvAux.eq_def]
  simp [hc]

/-- Scanner step: a closing quote at the end of the stream. -/
theorem step_true_close_nil : parseCsvAux true ['"'] = [[[]]] := by
  conv_lhs => rw [parseCsvAux.eq_def]
  simp

/-- Scanner step: an ordinary character inside quotes joins the field. -/
theorem step_true_char (c : Char) (rest : List Char) (hc : ¬c = '"') :
    parseCsvAux true (c :: rest) = consField c (parseCsvAux true rest) := by
  conv_lhs => rw [parseCsvAux.eq_def]
  simp [hc]

/-- Prepending a character preserves "no record is empty". -/
theorem consField_good (c : Char) (X : List (List (List Char)))
    (h : ∀ rec ∈ X, rec ≠ []) :
    consField c X ≠ [] ∧ ∀ rec ∈ consField c X, rec ≠ [] := by
  match X with
  | [] => simp [consField]
  | [] :: recs => exact absurd rfl (h [] (by simp))
  | (fld :: rec) :: recs =>
    refine ⟨by simp [consField], ?_⟩
    intro r hr
    rcases List.mem_cons.mp hr with hr1 | hr2
    · subst hr1; simp
    · exact h r (List.mem_cons_of_mem _ hr2)

/-- The parser always produces at least one record, and every record has
at least one field (possibly empty). -/
theorem parseCsvAux_good (b : Bool) (cs : List Char) :
    parseCsvAux b cs ≠ [] ∧ ∀ rec ∈ parseCsvAux b cs, rec ≠ [] := by
  induction b, cs using parseCsvAux.induct with
  | case1 => simp [parseCsvAux]
  | case2 rest ih => rw [step_false_quote]; exact ih
  | case3 rest hnil hc ih => exact absurd hnil ih.1
  | case4 rest rec recs heq hc ih =>
    rw [step_false_comma, heq]
    refine ⟨by simp [prependF], ?_⟩
    intro r hr
    rcases List.mem_cons.mp (by simpa [prependF] using hr) with hr1 | hr2
    · subst hr1; simp
    · exact ih.2 r (by rw [heq]; exact List.mem_cons_of_mem _ hr2)
  | case5 rest hq hcm ih =>
    rw [step_false_newline]
    refine ⟨by simp, ?_⟩
    intro r hr
    rcases List.mem_cons.mp hr with hr1 | hr2
    · subst hr1; simp
    · exact ih.2 r hr2
  | case6 c rest h1 h2 h3 ih =>
    rw [step_false_char c rest h1 h2 h3]
    exact consField_good c _ ih.2
  | case7 => simp [parseCsvAux]
  | case8 => rw [step_true_close_nil]; simp
  | case9 cs ih =>
    rw [step_true_esc]
    exact consField_good '"' _ ih.2
  | case10 c cs hc ih => rw [step_true_close c cs hc]; exact ih
  | case11 c rest hc ih =>
    rw [step_true_char c rest hc]
    exact consField_good c _ ih.2

/-- Folding characters into a fresh record builds that record's single
field. -/
theorem foldr_consField_newRecord (f : List Char)
    (X : List (List (List Char))) :
    f.foldr consField ([[]] :: X) = [f] :: X := by
  induction f with
  | nil => rfl
  | cons c f2 ih => simp [ih, consField]

/-- Folding characters over an empty open field fills the field. -/
theorem foldr_consField_prependF (f : List Char)
    (X : List (List (List Char))) :
    f.foldr consField (prependF [] X) = prependF f X := by
  induction f with
  | nil => rfl
  | cons c f2 ih =>
    simp only [List.foldr_cons, ih]
    cases X <;> rfl

/-- **Quoted fields** (Lemma A): scanning the escaped content of a field
in quoted mode, up to the closing quote, recovers exactly that content,
then continues in unquoted mode, provided the next character is not a
quote (it is a separator or the end of the file). -/
theorem parse_true_escQuote (f : List Char) : ∀ r : List Char,
    r.head? ≠ some '"' →
    parseCsvAux true (escQuote f ++ '"' :: r) =
      f.foldr consField (parseCsvAux false r) := by
  induction f with
  | nil =>
    intro r h
    cases r with
    | nil => simpa [escQuote] using step_true_close_nil
    | cons c2 r2 =>
      have hc2 : ¬c2 = '"' := by simpa [eq_comm] using h
      simpa [escQuote] using step_true_close c2 r2 hc2
  | cons c f2 ih =>
    intro r h
    by_cases hc : c = '"'
    · subst hc
      have he : escQuote ('"' :: f2) = '"' :: '"' :: escQuote f2 := by
        simp [escQuote]
      rw [he, List.cons_append, List.cons_append, step_true_esc, ih r h]
      rfl
    · have he : escQuote (c :: f2) = c :: escQuote f2 := by
        simp [escQuote, hc]
      rw [he, List.cons_append, step_true_char c _ hc, ih r h]
      rfl

/-- **Raw fields** (Lemma B): a field free of delimiter, quote and
newline characters is scanned character by character into the open
field. -/
theorem parse_false_raw (f : List Char) : ∀ r : List Char,
    (∀ c ∈ f, ¬c = ',' ∧ ¬c = '"' ∧ ¬c = '\n') →
    parseCsvAux false (f ++ r) = f.foldr consField (parseCsvAux false r) := by
  induction f with
  | nil => intro r _; simp
  | cons c f2 ih =>
    intro r h
    have hc := h c (by simp)
    rw [List.cons_append, step_false_char c _ hc.2.1 hc.1 hc.2.2,
      ih r fun d hd => h d (List.mem_cons_of_mem _ hd)]
    rfl

/-- A field whose encoding does not get quoted satisfies the raw-field
side condition. -/
theorem needsQuote_false_mem (f : List Char) (h : needsQuote f = false) :
    ∀ c ∈ f, ¬c = ',' ∧ ¬c = '"' ∧ ¬c = '\n' := by
  intro c hc
  have h2 := List.any_eq_false.mp h c hc
  simp only [Bool.or_eq_true, beq_iff_eq] at h2
  push_neg at h2
  exact ⟨h2.1.1.1, h2.1.1.2, h2.1.2⟩

/-- An encoded field followed by a comma parses to that field prepended
to the rest of the record. -/
theorem parse_encodeField_comma (f r : List Char) :
    parseCsvAux false (encodeField f ++ ',' :: r) =
      prependF f (parseCsvAux false r) := by
  by_cases hq : needsQuote f
  · rw [show encodeField f ++ ',' :: r =
        '"' :: (escQuote f ++ '"' :: ',' :: r) by
      simp [encodeField, hq]]
    rw [step_false_quote, parse_true_escQuote f (',' :: r) (by simp),
      step_false_comma, foldr_consField_prependF]
  · rw [show encodeField f = f from by simp [encodeField, hq]]
    rw [parse_false_raw f (',' :: r)
        (needsQuote_false_mem f (by simpa using hq)),
      step_false_comma, foldr_consField_prependF]

/-- An encoded field followed by a newline parses to a record holding
that field, then the rest of the document. -/
theorem parse_encodeField_newline (f r : List Char) :
    parseCsvAux false (encodeField f ++ '\n' :: r) =
      [f] :: parseCsvAux false r := by
  by_cases hq : needsQuote f
  · rw [show encodeField f ++ '\n' :: r =
        '"' :: (escQuote f ++ '"' :: '\n' :: r) by
      simp [encodeField, hq]]
    rw [step_false_quote, parse_true_escQuote f ('\n' :: r) (by simp),
      step_false_newline, foldr_consField_newRecord]
  · rw [show encodeField f = f from by simp [encodeField, hq]]
    rw [parse_false_raw f ('\n' :: r)
        (needsQuote_false_mem f (by simpa using hq)),
      step_false_newline, foldr_consField_newRecord]

/-- An encoded field at the end of the document parses to one record
holding that field. -/
theorem parse_encodeField_nil (f : List Char) :
    parseCsvAux false (encodeField f) = [[f]] := by
  by_cases hq : needsQuote f
  · rw [show encodeField f = '"' :: (escQuote f ++ '"' :: []) by
      simp [encodeField, hq]]
    rw [step_false_quote, parse_true_escQuote f [] (by simp)]
    rw [show parseCsvAux false [] = [[]] :: ([] : List (List (List Char)))
        from rfl]
    rw [foldr_consField_newRecord]
  · rw [show encodeField f = f ++ ([] : List Char) from by
      simp [encodeField, hq]]
    rw [parse_false_raw f [] (needsQuote_false_mem f (by simpa using hq))]
    rw [show parseCsvAux false [] = [[]] :: ([] : List (List (List Char)))
        from rfl]
    rw [foldr_consField_newRecord]

/-- **Records** (Lemma C): an encoded record followed by a newline
parses to that record followed by the parse of the rest. -/
theorem parse_encodeRecord_newline (rec : List (List Char)) :
    ∀ r : List Char, rec ≠ [] →
    parseCsvAux false (encodeRecord rec ++ '\n' :: r) =
      rec :: parseCsvAux false r := by
  induction rec with
  | nil => intro r h; exact absurd rfl h
  | cons f fs ih =>
    intro r _
    cases fs with
    | nil =>
      simpa [encodeRecord, joinSep] using parse_encodeField_newline f r
    | cons f2 fs2 =>
      have hsplit : encodeRecord (f :: f2 :: fs2) =
          encodeField f ++ ',' :: encodeRecord (f2 :: fs2) := by
        simp [encodeRecord, joinSep]
      rw [hsplit, List.append_assoc, List.cons_append,
        parse_encodeField_comma, ih r (by simp)]
      rfl

/-- An encoded record at the end of the document parses to itself. -/
theorem parse_encodeRecord_nil (rec : List (List Char)) (h : rec ≠ []) :
    parseCsvAux false (encodeRecord rec) = [rec] := by
  match rec with
  | [f] =>
    simpa [encodeRecord, joinSep] using parse_encodeField_nil f
  | f :: f2 :: fs2 =>
    have hsplit : encodeRecord (f :: f2 :: fs2) =
        encodeField f ++ ',' :: encodeRecord (f2 :: fs2) := by
      simp [encodeRecord, joinSep]
    rw [hsplit, parse_encodeField_comma,
      parse_encodeRecord_nil (f2 :: fs2) (by simp)]
    rfl

/-- **Round trip** (main lemma): the reader inverts the writer on any
document with at least one record and no empty record — the shape of
every file `to_csv` produces. -/
theorem parseCsv_encodeCsv : ∀ rs : List (List (List Char)), rs ≠ [] →
    (∀ rec ∈ rs, rec ≠ []) → parseCsv (encodeCsv rs) = rs := by
  intro rs
  induction rs with
  | nil => intro h0 _; exact absurd rfl h0
  | cons rec rs2 ih =>
    intro _ h1
    cases rs2 with
    | nil =>
      simpa [parseCsv, encodeCsv, joinSep] using
        parse_encodeRecord_nil rec (h1 rec (by simp))
    | cons rec2 rs3 =>
      have hsplit : encodeCsv (rec :: rec2 :: rs3) =
          encodeRecord rec ++ '\n' :: encodeCsv (rec2 :: rs3) := by
        simp [encodeCsv, joinSep]
      unfold parseCsv
      rw [hsplit, parse_encodeRecord_newline rec _ (h1 rec (by simp))]
      have h3 := ih (by simp) (fun r hr => h1 r (List.mem_cons_of_mem _ hr))
      unfold parseCsv at h3
      rw [h3]

/-- Reading back a written frame recovers it exactly, provided the frame
has a non-empty header and no empty row — true of every frame the app
writes. -/
theorem read_csv_to_csv (df : DataFrame) (h1 : df.cols ≠ [])
    (h2 : ∀ r ∈ df.rows, r ≠ []) : read_csv (to_csv df) = df := by
  unfold read_csv to_csv
  rw [show (String.mk (encodeCsv (df.cols.map String.data ::
      df.rows.map fun r => r.map String.data))).data =
      encodeCsv (df.cols.map String.data ::
        df.rows.map fun r => r.map String.data) from rfl]
  rw [parseCsv_encodeCsv _ (by simp) ?_]
  · simp only [List.map_cons, List.map_map]
    cases df with
    | mk cols rows =>
      simp [List.map_map, Function.comp_def, string_mk_data]
  · intro rec hrec
    simp only [List.mem_cons, List.mem_map] at hrec
    rcases hrec with h | ⟨r, hr, rfl⟩
    · subst h
      simpa using h1
    · simpa using h2 r hr

/-! ## The record-store append -/

/-- A key absent from a prefix of an association list is looked up in
the remainder. -/
theorem lookup_append_none {β : Type} (k : String) :
    ∀ l1 l2 : List (String × β), List.lookup k l1 = none →
    List.lookup k (l1 ++ l2) = List.lookup k l2 := by
  intro l1
  induction l1 with
  | nil => intro l2 _; simp
  | cons p t ih =>
    intro l2 h
    match p with
    | (a, b) =>
      cases hk : (k == a) with
      | true => simp [List.lookup, hk] at h
      | false =>
        simp only [List.lookup, hk] at h
        rw [List.cons_append]
        simp only [List.lookup, hk]
        exact ih l2 h

/-- Looking each column of a duplicate-free header up in its own
zipped row (past any prefix that misses all the columns) recovers the
row. -/
theorem reindex_lookup_pre : ∀ (cols row : List String)
    (pre : List (String × String)), cols.length = row.length →
    cols.Nodup → (∀ c ∈ cols, List.lookup c pre = none) →
    (cols.map fun c => (List.lookup c (pre ++ cols.zip row)).getD "") = row := by
  intro cols
  induction cols with
  | nil =>
    intro row pre hlen _ _
    simp only [List.map_nil]
    exact (List.length_eq_zero.mp hlen.symm).symm
  | cons c cs ih =>
    intro row pre hlen hnd hpre
    cases row with
    | nil => simp at hlen
    | cons r rs =>
      have hlen2 : cs.length = rs.length := by simpa using hlen
      simp only [List.zip_cons_cons, List.map_cons]
      have hhead : (List.lookup c (pre ++ (c, r) :: cs.zip rs)).getD "" = r := by
        rw [lookup_append_none c pre _ (hpre c (by simp))]
        simp [List.lookup]
      have hassoc : pre ++ (c, r) :: cs.zip rs =
          (pre ++ [(c, r)]) ++ cs.zip rs := by simp
      have htail : cs.map
          (fun c2 => (List.lookup c2 (pre ++ (c, r) :: cs.zip rs)).getD "") = rs := by
        rw [hassoc]
        apply ih rs (pre ++ [(c, r)]) hlen2 (List.Nodup.of_cons hnd)
        intro c2 hc2
        rw [lookup_append_none c2 pre _ (hpre c2 (List.mem_cons_of_mem _ hc2))]
        have hne : (c2 == c) = false := beq_eq_false_iff_ne.mpr
          (fun he => (List.nodup_cons.mp hnd).1 (he ▸ hc2))
        simp [List.lookup, hne]
      rw [hhead, htail]

/-- Re-indexing a row to its own duplicate-free header is the
identity. -/
theorem reindex_self (cols row : List String)
    (hlen : cols.length = row.length) (hnd : cols.Nodup) :
    reindex cols cols row = row := by
  simpa [reindex] using reindex_lookup_pre cols row [] hlen hnd (by simp)

/-- A re-indexed row always has the length of the target header. -/
theorem reindex_length (cols src row : List String) :
    (reindex cols src row).length = cols.length := by
  simp [reindex]

/-- Concatenating a one-row frame with the same columns appends exactly
that row and leaves the header and existing rows unchanged. -/
theorem concat_same_schema (df : DataFrame) (row : List (String × String))
    (hk : row.map Prod.fst = df.cols) (hnd : df.cols.Nodup)
    (hrows : ∀ r ∈ df.rows, r.length = df.cols.length) :
    concatDF df (rowDF row) =
      DataFrame.mk df.cols (df.rows ++ [row.map Prod.snd]) := by
  have hcc : concatCols df (rowDF row) = df.cols := by
    unfold concatCols rowDF
    simp only
    rw [hk, List.filter_eq_nil_iff.mpr ?_, List.append_nil]
    intro a ha
    simp [ha]
  have hrc : (rowDF row).cols = df.cols := by simp [rowDF, hk]
  have hrr : (rowDF row).rows = [row.map Prod.snd] := rfl
  unfold concatDF
  rw [hcc, hrc, hrr]
  have h1 : df.rows.map (reindex df.cols df.cols) = df.rows := by
    calc df.rows.map (reindex df.cols df.cols)
        = df.rows.map id :=
          List.map_congr_left fun r hr => reindex_self _ _ (hrows r hr).symm hnd
      _ = df.rows := List.map_id _
  have h2 : reindex df.cols df.cols (row.map Prod.snd) = row.map Prod.snd :=
    reindex_self _ _ (by rw [← hk]; simp) hnd
  rw [h1]
  simp [h2]

/-- The header `read_csv` recovers is never empty. -/
theorem read_csv_cols_good (s : String) : (read_csv s).cols ≠ [] := by
  unfold read_csv
  cases hp : parseCsv s.data with
  | nil => exact absurd hp (parseCsvAux_good false s.data).1
  | cons rec0 rest =>
    have h0 : rec0 ≠ [] :=
      (parseCsvAux_good false s.data).2 rec0 (by
        rw [show parseCsvAux false s.data = rec0 :: rest from hp]; simp)
    simp only [List.map_cons]
    simpa using h0

/-- Both branches of `append_log` serialise `appendDF`. -/
theorem append_log_eq_to_csv (file : Option String)
    (row : List (String × String)) :
    append_log file row = to_csv (appendDF file row) := by
  cases file <;> rfl

/-- `save_row` is the same procedure as `append_log`. -/
theorem save_row_eq_append_log (file : Option String)
    (row : List (String × String)) :
    save_row file row = append_log file row := by
  cases file <;> rfl

/-- The frame an append produces has a non-empty header. -/
theorem appendDF_cols_good (file : Option String)
    (row : List (String × String)) (hrow : row ≠ []) :
    (appendDF file row).cols ≠ [] := by
  cases file with
  | none =>
    simp only [appendDF, rowDF]
    exact fun h => hrow (List.map_eq_nil_iff.mp h)
  | some contents =>
    simp only [appendDF, concatDF, concatCols]
    intro h
    rcases List.append_eq_nil.mp h with ⟨h1, _⟩
    exact read_csv_cols_good contents h1

/-- The frame an append produces has no empty row. -/
theorem appendDF_rows_good (file : Option String)
    (row : List (String × String)) (hrow : row ≠ []) :
    ∀ r ∈ (appendDF file row).rows, r ≠ [] := by
  cases file with
  | none =>
    intro r hr
    simp only [appendDF, rowDF, List.mem_singleton] at hr
    subst hr
    exact fun h => hrow (List.map_eq_nil_iff.mp h)
  | some contents =>
    intro r hr
    have hcc : concatCols (read_csv contents) (rowDF row) ≠ [] := by
      have := appendDF_cols_good (some contents) row hrow
      simpa [appendDF, concatDF] using this
    simp only [appendDF, concatDF, List.mem_append, List.mem_map] at hr
    rcases hr with ⟨r0, _, rfl⟩ | ⟨r0, _, rfl⟩
    · intro h
      apply hcc
      have hl := reindex_length (concatCols (read_csv contents) (rowDF row))
        (read_csv contents).cols r0
      rw [h] at hl
      exact List.length_eq_zero.mp hl.symm
    · intro h
      apply hcc
      have hl := reindex_length (concatCols (read_csv contents) (rowDF row))
        (rowDF row).cols r0
      rw [h] at hl
      exact List.length_eq_zero.mp hl.symm

/-- **Read-back of an append** (main store lemma): reading the file an
append just wrote recovers exactly the concatenated frame, for any
prior file state and any non-empty row. -/
theorem read_append_log (file : Option String)
    (row : List (String × String)) (hrow : row ≠ []) :
    read_csv (append_log file row) = appendDF file row := by
  rw [append_log_eq_to_csv]
  exact read_csv_to_csv _ (appendDF_cols_good file row hrow)
    (appendDF_rows_good file row hrow)

/-- Zipping the projections of an association list rebuilds it. -/
theorem zip_map_fst_snd (l : List (String × String)) :
    (l.map Prod.fst).zip (l.map Prod.snd) = l := by
  induction l with
  | nil => rfl
  | cons p t ih => simp [ih]

/-- Association-list lookup finds the value of any key of a
duplicate-free row. -/
theorem lookup_self_of_nodup : ∀ (l : List (String × String)) (k v : String),
    (l.map Prod.fst).Nodup → (k, v) ∈ l → List.lookup k l = some v := by
  intro l
  induction l with
  | nil => intro k v _ h; simp at h
  | cons p t ih =>
    intro k v hnd hm
    match p with
    | (a, b) =>
      rcases List.mem_cons.mp hm with h1 | h2
      · rw [show k = a from congrArg Prod.fst h1,
          show v = b from congrArg Prod.snd h1]
        simp [List.lookup]
      · have hnd2 : (a :: t.map Prod.fst).Nodup := by simpa using hnd
        by_cases hk : k = a
        · exact absurd (List.mem_map_of_mem Prod.fst h2)
            (hk ▸ (List.nodup_cons.mp hnd2).1)
        · have hne : (k == a) = false := beq_eq_false_iff_ne.mpr hk
          simp only [List.lookup, hne]
          exact ih k v (List.nodup_cons.mp hnd2).2 h2

/-- Looking a header key up in the zip of the header with a mapped copy
of itself yields the mapped value. -/
theorem lookup_zip_map (f : String → String) :
    ∀ (cols : List String) (k : String), k ∈ cols →
    List.lookup k (cols.zip (cols.map f)) = some (f k) := by
  intro cols
  induction cols with
  | nil => intro k h; simp at h
  | cons c cs ih =>
    intro k hk
    by_cases he : k = c
    · subst he; simp [List.lookup]
    · have hm : k ∈ cs := by
        rcases List.mem_cons.mp hk with h | h
        · exact absurd h he
        · exact h
      have hne : (k == c) = false := beq_eq_false_iff_ne.mpr he
      simp only [List.map_cons, List.zip_cons_cons, List.lookup, hne]
      exact ih k hm

/-- Every key of the appended row survives into the union header. -/
theorem mem_concatCols (a b : DataFrame) (k : String) (hk : k ∈ b.cols) :
    k ∈ concatCols a b := by
  unfold concatCols
  by_cases hin : k ∈ a.cols
  · exact List.mem_append_left _ hin
  · refine List.mem_append_right _ (List.mem_filter.mpr ⟨hk, ?_⟩)
    simp [hin]

/-! ## The assignment directory -/

/-- `lexLe` is total. -/
theorem lexLe_total : ∀ x y : List Char, lexLe x y = true ∨ lexLe y x = true := by
  intro x
  induction x with
  | nil => intro y; left; rfl
  | cons a as ih =>
    intro y
    cases y with
    | nil => right; rfl
    | cons b bs =>
      rcases Nat.lt_trichotomy a.toNat b.toNat with h | h | h
      · left; simp [lexLe, h]
      · rcases ih bs with h2 | h2
        · left; simp [lexLe, h, h2]
        · right; simp [lexLe, h.symm, h2]
      · right; simp [lexLe, h]

/-- `lexLe` is transitive. -/
theorem lexLe_trans : ∀ x y z : List Char, lexLe x y = true →
    lexLe y z = true → lexLe x z = true := by
  intro x
  induction x with
  | nil => intro y z _ _; rfl
  | cons a as ih =>
    intro y z hxy hyz
    cases y with
    | nil => simp [lexLe] at hxy
    | cons b bs =>
      cases z with
      | nil => simp [lexLe] at hyz
      | cons c cs =>
        simp only [lexLe] at hxy hyz ⊢
        split_ifs at hxy hyz ⊢ <;>
          first
            | rfl
            | omega
            | exact ih bs cs hxy hyz

/-- Membership in the sorted listing is membership in the filtered
rows. -/
theorem mem_listFor (store : Option (List Assignment)) (g : String)
    (a : Assignment) :
    a ∈ listFor store g ↔ a ∈ assignments_for_group store g :=
  (List.perm_insertionSort tsLeP _).mem_iff

/-! ## The claims -/

/-- C1, counterexample: the claim fails as stated.  The strings
`"ENG201-1"` and `"ENG201-1 "` (trailing blank) are distinct, yet an
assignment created with group `"ENG201-1"` does appear in the listing
for the entered group string `"ENG201-1 "`, because the student's
entered group code is whitespace-stripped before the exact match. -/
theorem c1_counterexample :
    ("ENG201-1" : String) ≠ "ENG201-1 " ∧ sampleA.group = "ENG201-1" ∧
      sampleA ∈ listFor (some [sampleA]) "ENG201-1 " := by
  refine ⟨by decide, rfl, by decide⟩

/-- C1, amended: for every stored group `g1` and entered group string
`g2`, if `g1` differs from the whitespace-stripped `g2` then an
assignment with group `g1` never appears in the listing for `g2`; the
match on the stripped string is exact, byte for byte. -/
theorem c1_group_isolation (store : Option (List Assignment))
    (g1 g2 : String) (a : Assignment) (hg : a.group = g1)
    (hne : g1 ≠ pyStrip g2) : a ∉ listFor store g2 := by
  intro hmem
  rw [mem_listFor] at hmem
  cases store with
  | none => simp [assignments_for_group] at hmem
  | some df =>
    by_cases hs : pyStrip g2 = ""
    · simp [assignments_for_group, hs] at hmem
    · simp only [assignments_for_group, if_neg hs] at hmem
      have h2 : a.group = pyStrip g2 := by
        simpa using (List.mem_filter.mp hmem).2
      exact hne (by rw [← hg]; exact h2)

/-- C1, witness for the amended theorem at concrete inputs. -/
theorem c1_witness :
    sampleA.group = "ENG201-1" ∧ ("ENG201-1" : String) ≠ pyStrip "ENG201-2" ∧
      sampleA ∉ listFor (some [sampleA]) "ENG201-2" :=
  ⟨rfl, by decide,
    c1_group_isolation (some [sampleA]) "ENG201-1" "ENG201-2" sampleA rfl
      (by decide)⟩

/-- C2: for every store state, a blank (empty or whitespace-only)
entered group string yields an empty listing — never all
assignments. -/
theorem c2_blank_group_empty (store : Option (List Assignment))
    (group_code : String) (h : pyStrip group_code = "") :
    listFor store group_code = [] := by
  unfold listFor
  cases store with
  | none => rfl
  | some df => simp [assignments_for_group, h]

/-- C2, witness: a whitespace-only group code on a non-empty store. -/
theorem c2_witness :
    pyStrip "   " = "" ∧ listFor (some [sampleA]) "   " = [] :=
  ⟨by decide, c2_blank_group_empty (some [sampleA]) "   " (by decide)⟩

/-- C3: on first use `append_log` creates the store with the header
derived from the row's keys and the row as only content; on a
subsequent call against a well-formed store written with the same
schema, it reads the full contents back, appends the row after them and
rewrites the store, preserving the existing rows unchanged. -/
theorem c3_append_create_and_rewrite :
    (∀ row : List (String × String), row ≠ [] →
      read_csv (append_log none row) =
        DataFrame.mk (row.map Prod.fst) [row.map Prod.snd]) ∧
    (∀ (df : DataFrame) (row : List (String × String)), WFdf df →
      row.map Prod.fst = df.cols →
      read_csv (append_log (some (to_csv df)) row) =
        DataFrame.mk df.cols (df.rows ++ [row.map Prod.snd])) := by
  constructor
  · intro row hrow
    rw [read_append_log none row hrow]
    rfl
  · intro df row hwf hk
    have hrow : row ≠ [] := by
      intro h
      apply hwf.1
      rw [← hk, h]
      rfl
    rw [read_append_log (some (to_csv df)) row hrow]
    show concatDF (read_csv (to_csv df)) (rowDF row) = _
    rw [read_csv_to_csv df hwf.1 ?_]
    · exact concat_same_schema df row hk hwf.2.1 hwf.2.2
    · intro r hr hnil
      apply hwf.1
      have hl := hwf.2.2 r hr
      rw [hnil] at hl
      exact List.length_eq_zero.mp hl.symm

/-- C3, witness: both conjuncts at a concrete one-column store. -/
theorem c3_witness :
    read_csv (append_log none [("a", "1")]) =
      DataFrame.mk ["a"] [["1"]] ∧
    read_csv (append_log (some (to_csv (DataFrame.mk ["a"] [["x"]])))
        [("a", "1")]) = DataFrame.mk ["a"] [["x"], ["1"]] := by
  constructor
  · have h := c3_append_create_and_rewrite.1 [("a", "1")] (by decide)
    simpa using h
  · have h := c3_append_create_and_rewrite.2 (DataFrame.mk ["a"] [["x"]])
      [("a", "1")] (by decide) (by decide)
    simpa using h

/-- C4: for every store file state (absent, or any contents, including a
store with a drifted column set) and every non-empty row with distinct
keys, appending and then reading everything back yields a non-empty row
sequence whose last element carries the appended row field by field:
looking any appended key up in the last row returns exactly the
appended value (store-filled defaults in other columns ignored). -/
theorem c4_append_then_read_last (file : Option String)
    (row : List (String × String)) (hrow : row ≠ [])
    (hnd : (row.map Prod.fst).Nodup) :
    ∃ last, (readAll (some (append_log file row))).getLast? = some last ∧
      ∀ p ∈ row, List.lookup p.1
        ((read_csv (append_log file row)).cols.zip last) = some p.2 := by
  have hra : readAll (some (append_log file row)) =
      (read_csv (append_log file row)).rows := rfl
  rw [hra, read_append_log file row hrow]
  cases file with
  | none =>
    refine ⟨row.map Prod.snd, by simp [appendDF, rowDF], ?_⟩
    intro p hp
    show List.lookup p.1 ((row.map Prod.fst).zip (row.map Prod.snd)) = some p.2
    rw [zip_map_fst_snd]
    exact lookup_self_of_nodup row p.1 p.2 hnd hp
  | some contents =>
    refine ⟨reindex (concatCols (read_csv contents) (rowDF row))
      (rowDF row).cols (row.map Prod.snd), ?_, ?_⟩
    · simp [appendDF, concatDF, rowDF]
    · intro p hp
      show List.lookup p.1 ((concatCols (read_csv contents) (rowDF row)).zip
        ((concatCols (read_csv contents) (rowDF row)).map fun c =>
          (List.lookup c (((rowDF row).cols).zip (row.map Prod.snd))).getD ""))
        = some p.2
      rw [lookup_zip_map _ _ p.1 (mem_concatCols _ _ p.1
        (by simpa [rowDF] using List.mem_map_of_mem Prod.fst hp))]
      have hz : ((rowDF row).cols).zip (row.map Prod.snd) = row := by
        simpa [rowDF] using zip_map_fst_snd row
      rw [hz, lookup_self_of_nodup row p.1 p.2 hnd hp]
      rfl

/-- C4, witness: an append on a drifted store, read back. -/
theorem c4_witness :
    ∃ last, (readAll (some (append_log
        (some (to_csv (DataFrame.mk ["a"] [["x"]]))) [("b", "2")]))).getLast? =
      some last ∧
      ∀ p ∈ [("b", "2")], List.lookup p.1
        ((read_csv (append_log (some (to_csv (DataFrame.mk ["a"] [["x"]])))
          [("b", "2")])).cols.zip last) = some p.2 :=
  c4_append_then_read_last (some (to_csv (DataFrame.mk ["a"] [["x"]])))
    [("b", "2")] (by decide) (by decide)

/-- C5: a missing backing file is treated as "no data yet" on every
read path — `readAll`, the dashboard's `top_counts` and the student
view's `assignments_for_group` (and hence the sorted listing) all
return an empty result rather than raising. -/
theorem c5_absent_store_reads_empty :
    readAll none = [] ∧ (∀ column n, top_counts none column n = []) ∧
    (∀ g, assignments_for_group none g = []) ∧ (∀ g, listFor none g = []) :=
  ⟨rfl, fun _ _ => rfl, fun _ => rfl, fun _ => rfl⟩

/-- C6: a row holding a value that contains the field delimiter or the
record separator is escaped on write and unescaped on read: reading the
file back after the append recovers the concatenated frame exactly, and
on a fresh store the read-back data row is literally the appended
values. -/
theorem c6_delimiter_roundtrip (file : Option String)
    (row : List (String × String)) (hrow : row ≠ [])
    (hdelim : ∃ p ∈ row, ',' ∈ p.2.data ∨ '\n' ∈ p.2.data) :
    read_csv (append_log file row) = appendDF file row ∧
    (read_csv (append_log none row)).rows = [row.map Prod.snd] := by
  refine ⟨read_append_log file row hrow, ?_⟩
  rw [read_append_log none row hrow]
  rfl

/-- C6, witness: a value containing both a comma and a newline. -/
theorem c6_witness :
    read_csv (append_log none [("text", "Hello, world\nbye")]) =
      appendDF none [("text", "Hello, world\nbye")] ∧
    (read_csv (append_log none [("text", "Hello, world\nbye")])).rows =
      [["Hello, world\nbye"]] := by
  have h := c6_delimiter_roundtrip none [("text", "Hello, world\nbye")]
    (by decide) (by decide)
  exact ⟨h.1, by rw [h.2]; rfl⟩

/-- C7: the student-facing listing is sorted by timestamp ascending;
when a group's assignments are exactly two rows appended in creation
order with non-decreasing timestamps, the default selection is the
later one; and a group with no assignments gets no default. -/
theorem c7_order_and_default :
    (∀ (store : Option (List Assignment)) (g : String),
      List.Sorted tsLeP (listFor store g)) ∧
    (∀ (l1 l2 l3 : List Assignment) (g : String) (a1 a2 : Assignment),
      pyStrip g ≠ "" → a1.group = pyStrip g → a2.group = pyStrip g →
      (∀ b ∈ l1 ++ l2 ++ l3, b.group ≠ pyStrip g) → tsLeP a1 a2 →
      default_assignment (some (l1 ++ a1 :: l2 ++ a2 :: l3)) g = some a2) ∧
    (∀ (df : List Assignment) (g : String),
      (∀ a ∈ df, a.group ≠ pyStrip g) →
      default_assignment (some df) g = none) := by
  haveI htot : IsTotal Assignment tsLeP :=
    ⟨fun a b => lexLe_total a.timestamp.data b.timestamp.data⟩
  haveI htr : IsTrans Assignment tsLeP :=
    ⟨fun a b c hab hbc => lexLe_trans _ _ _ hab hbc⟩
  refine ⟨fun store g => List.sorted_insertionSort tsLeP _, ?_, ?_⟩
  · intro l1 l2 l3 g a1 a2 hg h1 h2 hothers h12
    have e1 : l1.filter (fun b => b.group == pyStrip g) = [] :=
      List.filter_eq_nil_iff.mpr fun b hb => by
        simp [hothers b (by simp [hb])]
    have e2 : l2.filter (fun b => b.group == pyStrip g) = [] :=
      List.filter_eq_nil_iff.mpr fun b hb => by
        simp [hothers b (by simp [hb])]
    have e3 : l3.filter (fun b => b.group == pyStrip g) = [] :=
      List.filter_eq_nil_iff.mpr fun b hb => by
        simp [hothers b (by simp [hb])]
    have hfil : assignments_for_group (some (l1 ++ a1 :: l2 ++ a2 :: l3)) g =
        [a1, a2] := by
      simp only [assignments_for_group, if_neg hg]
      simp [List.filter_append, List.filter_cons, e1, e2, e3, h1, h2]
    have hsort : listFor (some (l1 ++ a1 :: l2 ++ a2 :: l3)) g = [a1, a2] := by
      unfold listFor
      rw [hfil]
      simp [List.insertionSort, List.orderedInsert, h12]
    unfold default_assignment
    rw [hsort]
    rfl
  · intro df g h
    unfold default_assignment listFor
    by_cases hs : pyStrip g = ""
    · simp [assignments_for_group, hs]
    · have hfil : df.filter (fun a => a.group == pyStrip g) = [] :=
        List.filter_eq_nil_iff.mpr fun a ha => by simp [h a ha]
      simp [assignments_for_group, hs, hfil]

/-- C7, witness: two concrete assignments in one group, and an empty
group. -/
theorem c7_witness :
    List.Sorted tsLeP (listFor (some [sampleA, sampleB]) "ENG201-1") ∧
    default_assignment (some [sampleA, sampleB]) "ENG201-1" = some sampleB ∧
    default_assignment (some [sampleA]) "OTHER" = none := by
  refine ⟨c7_order_and_default.1 (some [sampleA, sampleB]) "ENG201-1", ?_,
    c7_order_and_default.2.2 [sampleA] "OTHER" (by decide)⟩
  have h := c7_order_and_default.2.1 [] [] [] "ENG201-1" sampleA sampleB
    (by decide) (by decide) (by decide) (by simp) (by decide)
  simpa using h

/-- C8: whatever exception the external generation call raises, `llm`
returns the inline placeholder warning naming the failure; its result
type is a plain string, so the failure is never propagated to the
caller. -/
theorem c8_llm_catches_failures (e : String) :
    llm (Except.error e) = "⚠️ LLM call failed: " ++ e := rfl

/-- C9, counterexample: the record the submit handler writes has the
keys `timestamp, code, student, group, session, first_draft, final,
reflection` — no `feedback` key, so the written Submission cannot carry
generated feedback, contradicting the claim that feedback is generated
as a fallback and written with the record. -/
theorem c9_counterexample :
    "feedback" ∉ (submit_row "2025-01-01 10:00:00" "ENG201-AB12" "Student"
      "ENG201-1" "sess1234" "draft" "final text" "thoughts").map Prod.fst := by
  decide

/-- C9, amended: on Submit the workflow writes exactly one Submission
record via the record store's append (the row count grows by one, for
any prior store state), and the written row consists of the fields
timestamp, code, student, group, session, first_draft, final and
reflection only — no feedback is generated or stored on submit. -/
theorem c9_submit_writes_one_record (file : Option String)
    (now code student group session_id first_draft final reflection : String) :
    (readAll (some (submit_assignment file now code student group session_id
        first_draft final reflection))).length = (readAll file).length + 1 ∧
    (submit_row now code student group session_id first_draft final
        reflection).map Prod.fst =
      ["timestamp", "code", "student", "group", "session", "first_draft",
        "final", "reflection"] := by
  constructor
  · unfold submit_assignment
    rw [save_row_eq_append_log]
    have hra : readAll (some (append_log file (submit_row now code student
        group session_id first_draft final reflection))) =
        (read_csv (append_log file (submit_row now code student group
          session_id first_draft final reflection))).rows := rfl
    rw [hra, read_append_log file _ (by simp [submit_row])]
    cases file with
    | none => rfl
    | some contents => simp [appendDF, concatDF, readAll, rowDF]
  · rfl

/-- C10: `now_str` is memoised by `st.cache_data`: within one process
run, every call returns the string computed by the first call, whatever
the wall clock says later — so two records created at genuinely
different times carry identical timestamp strings. -/
theorem c10_now_str_cached (t1 t2 : String) (ts : List String) :
    nowStrRun none (t1 :: ts) = List.replicate (ts.length + 1) t1 ∧
    nowStrRun none [t1, t2] = [t1, t1] := by
  constructor
  · have key : ∀ (us : List String) (s : String),
        nowStrRun (some s) us = List.replicate us.length s := by
      intro us
      induction us with
      | nil => intro s; rfl
      | cons u us2 ih =>
        intro s
        simp [nowStrRun, now_str, ih, List.replicate]
    simp [nowStrRun, now_str, key ts t1, List.replicate]
  · rfl

end EduTranslator

